import Mathlib

/-!
Verification development for the string-wrap engine declared in
`cpp/include/cudf/strings/wrap.hpp`.  The repository only ships the
declaration of `cudf::strings::wrap`; the per-row greedy line-breaking
state machine and the column orchestration are therefore modelled from
the specification (§4.1, §4.3, §6) as a shallow embedding: a row is a
`List Char` or `none` for a null row, a column is a list of rows, and
machine `size_type` widths are `Int`.
-/

namespace cudf.strings

/-- Per-row scanner state of the wrap state machine (§4.1 step 2):
`acc` holds the finished lines (each to be followed by a break character
on emission), `buf` the characters of the current line since the last
break, `lastSpace` the index in `buf` of the most recent space seen
since the last break, `skipping` whether we are in post-break
space-skipping mode (§4.1 step 3.d), `skipped` the number of post-break
spaces skipped so far, and `insertions` the number of insertion breaks
recorded so far. -/
structure WrapState where
  acc : List (List Char)
  buf : List Char
  lastSpace : Option Nat
  skipping : Bool
  skipped : Nat
  insertions : Nat
deriving Repr, DecidableEq

/-- Modelled from the spec: one step of the WrapPlanner/RowWriter state
machine of §4.1 step 3 (the implementation file for the declared
`cudf::strings::wrap` is not part of the sources, only its header).
The character `c` is consumed: a space encountered in post-break
skipping mode is dropped (step 3.d); otherwise the character joins the
current line (step 3.a), a space updates `lastSpace` (step 3.b), and if
the line now exceeds `width` a substitution break is recorded at
`lastSpace` when one is set, else an insertion break immediately before
`c` (step 3.c). -/
def wrapStep (width : Nat) (st : WrapState) (c : Char) : WrapState :=
  if st.skipping = true ∧ c = ' ' then
    ⟨st.acc, st.buf, st.lastSpace, true, st.skipped + 1, st.insertions⟩
  else
    let buf' := st.buf ++ [c]
    let ls' : Option Nat := if c = ' ' then some st.buf.length else st.lastSpace
    if width < buf'.length then
      match ls' with
      | some j => ⟨st.acc ++ [buf'.take j], buf'.drop (j + 1), none, true,
                   st.skipped, st.insertions⟩
      | none => ⟨st.acc ++ [st.buf], [c], none, true, st.skipped,
                 st.insertions + 1⟩
    else
      ⟨st.acc, buf', ls', false, st.skipped, st.insertions⟩

/-- Modelled from the spec: §4.1 step 1 — trim leading and trailing
space characters from the row before processing. -/
def trim (s : List Char) : List Char :=
  (((s.dropWhile fun c => c = ' ').reverse.dropWhile fun c => c = ' ')).reverse

/-- The scanner state before any character is consumed. -/
def initState : WrapState := ⟨[], [], none, false, 0, 0⟩

/-- Modelled from the spec: the final state of the §4.1 scan over the
trimmed row. -/
def wrapRowState (width : Nat) (s : List Char) : WrapState :=
  (trim s).foldl (wrapStep width) initState

/-- Assemble the output row from the finished lines and the final line:
each finished line is followed by the break character, the final line is
not (§4.1 step 4, §4.2). -/
def emit (acc : List (List Char)) (buf : List Char) : List Char :=
  acc.foldr (fun l r => l ++ '\n' :: r) buf

/-- Modelled from the spec: the wrapped text of one non-null row
(§4.1 / §4.2 — planner and writer derive the same stream, so the
written row is determined by the final scanner state). -/
def wrapRow (width : Nat) (s : List Char) : List Char :=
  emit (wrapRowState width s).acc (wrapRowState width s).buf

/-- Number of post-break spaces skipped by §4.1 step 3.d on a row. -/
def skippedCount (width : Nat) (s : List Char) : Nat :=
  (wrapRowState width s).skipped

/-- Number of insertion breaks recorded on a row (§4.1 step 3.c). -/
def insertionCount (width : Nat) (s : List Char) : Nat :=
  (wrapRowState width s).insertions

/-- The lines of a row: the content between consecutive break
characters, before the first one and after the last one (§8). -/
def lines : List Char → List (List Char)
  | [] => [[]]
  | c :: rest =>
    if c = '\n' then [] :: lines rest
    else
      match lines rest with
      | [] => [[c]]
      | l :: ls => (c :: l) :: ls

/-- Modelled from the spec: the whole-column operation
`wrap(inputColumn, width) -> outputColumn` of §6 — width ≤ 0 is
rejected as an invalid argument before any row is processed, null rows
pass through as nulls, and every non-null row is wrapped independently
per §4.1. -/
def wrap (strings : List (Option (List Char))) (width : Int) :
    Except String (List (Option (List Char))) :=
  if width ≤ 0 then
    Except.error "Parameter width must be greater than zero"
  else
    Except.ok (strings.map (Option.map (wrapRow width.toNat)))

/-- Scanner-state invariant: a recorded `lastSpace` index lies inside the
current line buffer. -/
def lsOk (st : WrapState) : Prop :=
  ∀ j, st.lastSpace = some j → j < st.buf.length

/-- Scanner-state invariant behind the line-width bound: finished lines
and the current line never exceed `width`, and `lastSpace` is in range. -/
def linesOk (width : Nat) (st : WrapState) : Prop :=
  (∀ l ∈ st.acc, l.length ≤ width) ∧ st.buf.length ≤ width ∧ lsOk st

/-- Total output the state would emit, together with the skipped spaces. -/
def stLen (st : WrapState) : Nat :=
  (emit st.acc st.buf).length

/-- Scanner-state invariant behind break-character provenance: every
character held by the state comes from the set of characters of the
input row. -/
def charsOk (s : List Char) (st : WrapState) : Prop :=
  (∀ l ∈ st.acc, ∀ d ∈ l, d ∈ s) ∧ ∀ d ∈ st.buf, d ∈ s

/-- Scanner-state invariant behind "a new line never begins with a
space": every finished line is nonempty, starts with a non-space and
holds no break character; the current line likewise never starts with a
space and holds no break character; an empty current line only occurs in
post-break skipping mode; and `lastSpace` points at the last space of
the current line. -/
def noLeadOk (st : WrapState) : Prop :=
  (∀ l ∈ st.acc, l ≠ [] ∧ l.head? ≠ some ' ' ∧ '\n' ∉ l) ∧
  st.buf.head? ≠ some ' ' ∧ '\n' ∉ st.buf ∧
  (st.buf = [] → st.skipping = true) ∧
  (∀ j, st.lastSpace = some j →
    st.buf[j]? = some ' ' ∧ ∀ k, j < k → st.buf[k]? ≠ some ' ')

end cudf.strings

namespace cudf.strings

theorem wrapStep_skip (width : Nat) (st : WrapState) (c : Char)
    (h : st.skipping = true ∧ c = ' ') :
    wrapStep width st c =
      ⟨st.acc, st.buf, st.lastSpace, true, st.skipped + 1, st.insertions⟩ := by
  simp [wrapStep, h]

theorem wrapStep_no_break (width : Nat) (st : WrapState) (c : Char)
    (h1 : ¬(st.skipping = true ∧ c = ' '))
    (h2 : ¬ width < st.buf.length + 1) :
    wrapStep width st c =
      ⟨st.acc, st.buf ++ [c],
        if c = ' ' then some st.buf.length else st.lastSpace,
        false, st.skipped, st.insertions⟩ := by
  simp only [wrapStep, if_neg h1, List.length_append, List.length_cons,
    List.length_nil, Nat.zero_add, if_neg h2]

theorem wrapStep_sub_space (width : Nat) (st : WrapState) (c : Char)
    (h1 : ¬(st.skipping = true ∧ c = ' '))
    (h2 : width < st.buf.length + 1) (h3 : c = ' ') :
    wrapStep width st c =
      ⟨st.acc ++ [st.buf], [], none, true, st.skipped, st.insertions⟩ := by
  have ht : (st.buf ++ [c]).take st.buf.length = st.buf := List.take_left _ _
  have hd : (st.buf ++ [c]).drop (st.buf.length + 1) = [] := by
    apply List.drop_eq_nil_of_le
    simp
  simp only [wrapStep, if_neg h1, List.length_append, List.length_cons,
    List.length_nil, Nat.zero_add, if_pos h2, if_pos h3, ht, hd]

theorem wrapStep_sub (width : Nat) (st : WrapState) (c : Char) (j : Nat)
    (h1 : ¬(st.skipping = true ∧ c = ' '))
    (h2 : width < st.buf.length + 1) (h3 : c ≠ ' ')
    (h4 : st.lastSpace = some j) :
    wrapStep width st c =
      ⟨st.acc ++ [(st.buf ++ [c]).take j], (st.buf ++ [c]).drop (j + 1),
        none, true, st.skipped, st.insertions⟩ := by
  simp only [wrapStep, if_neg h1, List.length_append, List.length_cons,
    List.length_nil, Nat.zero_add, if_pos h2, if_neg h3, h4]

theorem lines_ne_nil (s : List Char) : lines s ≠ [] := by
  cases s with
  | nil => simp [lines]
  | cons c rest =>
    simp only [lines]
    split
    · simp
    · split <;> simp

theorem lines_cons_newline (x : List Char) :
    lines ('\n' :: x) = [] :: lines x := by
  simp [lines]

theorem lines_cons_ne (c : Char) (x l : List Char) (ls : List (List Char))
    (hc : c ≠ '\n') (h : lines x = l :: ls) :
    lines (c :: x) = (c :: l) :: ls := by
  simp only [lines, if_neg hc, h]

theorem lines_append_newline (a b : List Char) :
    lines (a ++ '\n' :: b) = lines a ++ lines b := by
  induction a with
  | nil =>
    rw [List.nil_append, lines_cons_newline]
    rfl
  | cons c a ih =>
    by_cases hc : c = '\n'
    · subst hc
      rw [List.cons_append, lines_cons_newline, lines_cons_newline, ih,
        List.cons_append]
    · cases h : lines a with
      | nil => exact absurd h (lines_ne_nil a)
      | cons l ls =>
        have h2 : lines (a ++ '\n' :: b) = l :: (ls ++ lines b) := by
          rw [ih, h, List.cons_append]
        rw [List.cons_append, lines_cons_ne c _ _ _ hc h2,
          lines_cons_ne c _ _ _ hc h, List.cons_append]

theorem lines_eq_single (l : List Char) (h : '\n' ∉ l) : lines l = [l] := by
  induction l with
  | nil => simp [lines]
  | cons c rest ih =>
    simp only [List.mem_cons, not_or] at h
    rw [lines, if_neg (Ne.symm h.1), ih h.2]

theorem lines_length_le (s : List Char) : ∀ l ∈ lines s, l.length ≤ s.length := by
  induction s with
  | nil => simp [lines]
  | cons c rest ih =>
    intro l hl
    simp only [lines] at hl
    split at hl
    · rcases List.mem_cons.mp hl with h | h
      · simp [h]
      · exact le_trans (ih l h) (by simp)
    · cases h : lines rest with
      | nil => exact absurd h (lines_ne_nil rest)
      | cons m ms =>
        rw [h] at hl
        rcases List.mem_cons.mp hl with h' | h'
        · have hm : m ∈ lines rest := by
            rw [h]
            exact List.mem_cons_self _ _
          have := ih m hm
          subst h'
          simp only [List.length_cons]
          omega
        · have hm : l ∈ lines rest := by
            rw [h]
            exact List.mem_cons.mpr (Or.inr h')
          exact le_trans (ih l hm) (by simp)

theorem emit_cons (l : List Char) (acc : List (List Char)) (buf : List Char) :
    emit (l :: acc) buf = l ++ '\n' :: emit acc buf := by
  simp [emit]

theorem lines_emit (acc : List (List Char)) (buf : List Char) :
    lines (emit acc buf) = (acc.map lines).flatten ++ lines buf := by
  induction acc with
  | nil => simp [emit]
  | cons l acc ih =>
    rw [emit_cons, lines_append_newline, ih]
    simp

theorem emit_length (acc : List (List Char)) (buf : List Char) :
    (emit acc buf).length =
      (acc.map fun l => l.length + 1).sum + buf.length := by
  induction acc with
  | nil => simp [emit]
  | cons l acc ih =>
    rw [emit_cons]
    simp only [List.length_append, List.length_cons, ih, List.map_cons,
      List.sum_cons]
    omega

theorem wrapStep_ins (width : Nat) (st : WrapState) (c : Char)
    (h1 : ¬(st.skipping = true ∧ c = ' '))
    (h2 : width < st.buf.length + 1) (h3 : c ≠ ' ')
    (h4 : st.lastSpace = none) :
    wrapStep width st c =
      ⟨st.acc ++ [st.buf], [c], none, true, st.skipped,
        st.insertions + 1⟩ := by
  simp only [wrapStep, if_neg h1, List.length_append, List.length_cons,
    List.length_nil, Nat.zero_add, if_pos h2, if_neg h3, h4]

end cudf.strings

namespace cudf.strings

theorem dropWhile_head_false {α : Type} (p : α → Bool) (l : List α) (c : α)
    (rest : List α) (h : l.dropWhile p = c :: rest) : p c = false := by
  induction l with
  | nil => simp [List.dropWhile] at h
  | cons a l ih =>
    rw [List.dropWhile_cons] at h
    by_cases hp : p a = true
    · rw [if_pos hp] at h
      exact ih h
    · rw [if_neg hp] at h
      cases h
      simpa using hp

theorem trim_decomp (s : List Char) :
    ∃ t, (s.dropWhile fun d => d = ' ') = trim s ++ t := by
  refine ⟨((s.dropWhile fun d => d = ' ').reverse.takeWhile
    fun d => d = ' ').reverse, ?_⟩
  have hsplit :
      ((s.dropWhile fun d => d = ' ').reverse.takeWhile fun d => d = ' ') ++
        ((s.dropWhile fun d => d = ' ').reverse.dropWhile fun d => d = ' ') =
        (s.dropWhile fun d => d = ' ').reverse :=
    List.takeWhile_append_dropWhile _ _
  have h1 := congrArg List.reverse hsplit
  rw [List.reverse_append, List.reverse_reverse] at h1
  exact h1.symm

theorem trim_head_ne_space (s : List Char) (c : Char) (rest : List Char)
    (h : trim s = c :: rest) : c ≠ ' ' := by
  obtain ⟨t, ht⟩ := trim_decomp s
  rw [h, List.cons_append] at ht
  have hf := dropWhile_head_false (fun d => d = ' ') s c (rest ++ t) ht
  intro hc
  rw [hc] at hf
  simp at hf

theorem trim_mem (s : List Char) (c : Char) (h : c ∈ trim s) : c ∈ s := by
  unfold trim at h
  rw [List.mem_reverse] at h
  have h2 := List.Sublist.mem h (List.dropWhile_sublist _)
  rw [List.mem_reverse] at h2
  exact List.Sublist.mem h2 (List.dropWhile_sublist _)

theorem wrapStep_lsOk (width : Nat) (st : WrapState) (c : Char)
    (h : lsOk st) : lsOk (wrapStep width st c) := by
  by_cases h1 : st.skipping = true ∧ c = ' '
  · rw [wrapStep_skip width st c h1]
    exact h
  · by_cases h2 : width < st.buf.length + 1
    · by_cases h3 : c = ' '
      · rw [wrapStep_sub_space width st c h1 h2 h3]
        intro j hj
        exact absurd hj (by simp)
      · cases h4 : st.lastSpace with
        | some j =>
          rw [wrapStep_sub width st c j h1 h2 h3 h4]
          intro k hk
          exact absurd hk (by simp)
        | none =>
          rw [wrapStep_ins width st c h1 h2 h3 h4]
          intro k hk
          exact absurd hk (by simp)
    · rw [wrapStep_no_break width st c h1 h2]
      intro j hj
      simp only at hj
      by_cases h3 : c = ' '
      · rw [if_pos h3] at hj
        cases hj
        simp
      · rw [if_neg h3] at hj
        have := h j hj
        simp only [List.length_append, List.length_cons, List.length_nil]
        omega

theorem foldl_lsOk (width : Nat) (l : List Char) (st : WrapState)
    (h : lsOk st) : lsOk (l.foldl (wrapStep width) st) := by
  induction l generalizing st with
  | nil => exact h
  | cons c l ih => exact ih _ (wrapStep_lsOk width st c h)

end cudf.strings

namespace cudf.strings

theorem wrapStep_linesOk (width : Nat) (st : WrapState) (c : Char)
    (hw : 1 ≤ width) (h : linesOk width st) :
    linesOk width (wrapStep width st c) := by
  obtain ⟨hacc, hbuf, hls⟩ := h
  by_cases h1 : st.skipping = true ∧ c = ' '
  · rw [wrapStep_skip width st c h1]
    exact ⟨hacc, hbuf, hls⟩
  · by_cases h2 : width < st.buf.length + 1
    · by_cases h3 : c = ' '
      · rw [wrapStep_sub_space width st c h1 h2 h3]
        refine ⟨?_, by simp, by intro j hj; exact absurd hj (by simp)⟩
        intro l hl
        rcases List.mem_append.mp hl with h' | h'
        · exact hacc l h'
        · simp only [List.mem_singleton] at h'
          subst h'
          exact hbuf
      · cases h4 : st.lastSpace with
        | some j =>
          have hjlt : j < st.buf.length := hls j h4
          rw [wrapStep_sub width st c j h1 h2 h3 h4]
          refine ⟨?_, ?_, by intro k hk; exact absurd hk (by simp)⟩
          · intro l hl
            rcases List.mem_append.mp hl with h' | h'
            · exact hacc l h'
            · simp only [List.mem_singleton] at h'
              subst h'
              simp only [List.length_take, List.length_append,
                List.length_cons, List.length_nil]
              omega
          · simp only [List.length_drop, List.length_append,
              List.length_cons, List.length_nil]
            omega
        | none =>
          rw [wrapStep_ins width st c h1 h2 h3 h4]
          refine ⟨?_, by simpa using hw,
            by intro k hk; exact absurd hk (by simp)⟩
          intro l hl
          rcases List.mem_append.mp hl with h' | h'
          · exact hacc l h'
          · simp only [List.mem_singleton] at h'
            subst h'
            exact hbuf
    · rw [wrapStep_no_break width st c h1 h2]
      refine ⟨hacc, ?_, ?_⟩
      · simp only [List.length_append, List.length_cons, List.length_nil]
        omega
      · intro j hj
        simp only at hj
        by_cases h3 : c = ' '
        · rw [if_pos h3] at hj
          cases hj
          simp
        · rw [if_neg h3] at hj
          have := hls j hj
          simp only [List.length_append, List.length_cons, List.length_nil]
          omega

theorem foldl_linesOk (width : Nat) (l : List Char) (st : WrapState)
    (hw : 1 ≤ width) (h : linesOk width st) :
    linesOk width (l.foldl (wrapStep width) st) := by
  induction l generalizing st with
  | nil => exact h
  | cons c l ih => exact ih _ (wrapStep_linesOk width st c hw h)

/-- C2: for every non-null input row and every width ≥ 1, no line of the
output row (content between consecutive break characters, before the
first and after the last one) exceeds `width` characters; forced
insertion breaks keep even oversize tokens within the bound. -/
theorem wrapRow_line_width_le (width : Nat) (s : List Char)
    (hw : 1 ≤ width) :
    ∀ l ∈ lines (wrapRow width s), l.length ≤ width := by
  have hok : linesOk width (wrapRowState width s) := by
    apply foldl_linesOk width (trim s) initState hw
    refine ⟨by simp [initState], by simp [initState], ?_⟩
    intro j hj
    exact absurd hj (by simp [initState])
  obtain ⟨hacc, hbuf, _⟩ := hok
  intro l hl
  rw [wrapRow, lines_emit] at hl
  rcases List.mem_append.mp hl with h' | h'
  · obtain ⟨piece, hpiece, hlp⟩ := List.mem_flatten.mp h'
    obtain ⟨a, ha, rfl⟩ := List.mem_map.mp hpiece
    exact le_trans (lines_length_le a l hlp) (hacc a ha)
  · exact le_trans (lines_length_le _ l h') hbuf

/-- C2 witness: the bound instantiated at width 5 on a concrete row with
an oversized token. -/
theorem wrapRow_line_width_le_witness :
    1 ≤ 5 ∧ ∀ l ∈ lines (wrapRow 5 ("more longtest short1".toList)),
      l.length ≤ 5 :=
  ⟨by decide, wrapRow_line_width_le 5 ("more longtest short1".toList)
    (by decide)⟩

end cudf.strings

namespace cudf.strings

theorem wrapStep_stLen (width : Nat) (st : WrapState) (c : Char)
    (h : lsOk st) :
    stLen (wrapStep width st c) + (wrapStep width st c).skipped
        + st.insertions
      = stLen st + st.skipped + (wrapStep width st c).insertions + 1 := by
  by_cases h1 : st.skipping = true ∧ c = ' '
  · rw [wrapStep_skip width st c h1]
    simp only [stLen, emit_length]
    omega
  · by_cases h2 : width < st.buf.length + 1
    · by_cases h3 : c = ' '
      · rw [wrapStep_sub_space width st c h1 h2 h3]
        simp only [stLen, emit_length, List.map_append, List.sum_append,
          List.map_cons, List.map_nil, List.sum_cons, List.sum_nil,
          List.length_nil]
        omega
      · cases h4 : st.lastSpace with
        | some j =>
          have hjlt : j < st.buf.length := h j h4
          rw [wrapStep_sub width st c j h1 h2 h3 h4]
          simp only [stLen, emit_length, List.map_append, List.sum_append,
            List.map_cons, List.map_nil, List.sum_cons, List.sum_nil,
            List.length_take, List.length_drop, List.length_append,
            List.length_cons, List.length_nil]
          have hmin : j ⊓ (st.buf.length + 0 + 1) = j := by omega
          omega
        | none =>
          rw [wrapStep_ins width st c h1 h2 h3 h4]
          simp only [stLen, emit_length, List.map_append, List.sum_append,
            List.map_cons, List.map_nil, List.sum_cons, List.sum_nil,
            List.length_cons, List.length_nil]
          omega
    · rw [wrapStep_no_break width st c h1 h2]
      simp only [stLen, emit_length, List.length_append, List.length_cons,
        List.length_nil]
      omega

theorem foldl_stLen (width : Nat) (l : List Char) (st : WrapState)
    (h : lsOk st) :
    stLen (l.foldl (wrapStep width) st)
        + (l.foldl (wrapStep width) st).skipped + st.insertions
      = stLen st + st.skipped + (l.foldl (wrapStep width) st).insertions
        + l.length := by
  induction l generalizing st with
  | nil => simp
  | cons c l ih =>
    have hstep := wrapStep_stLen width st c h
    have hrec := ih (wrapStep width st c) (wrapStep_lsOk width st c h)
    simp only [List.foldl_cons, List.length_cons] at *
    omega

/-- C3: for every non-null input row and every width ≥ 1, the output
row's length plus the number of post-break spaces skipped by step 3.d
equals the trimmed input row's length plus the number of insertion
breaks — substitution breaks leave the length unchanged, and the
property is computed per row from that row alone. -/
theorem wrapRow_length_eq (width : Nat) (s : List Char) (hw : 1 ≤ width) :
    (wrapRow width s).length + skippedCount width s
      = (trim s).length + insertionCount width s := by
  have hinit : lsOk initState := by
    intro j hj
    exact absurd hj (by simp [initState])
  have h := foldl_stLen width (trim s) initState hinit
  have h0 : stLen initState = 0 := by simp [stLen, initState, emit]
  have h1 : initState.skipped = 0 := rfl
  have h2 : initState.insertions = 0 := rfl
  rw [h0, h1, h2] at h
  simp only [wrapRow, skippedCount, insertionCount, wrapRowState, stLen] at *
  omega

/-- C3 witness: the length accounting instantiated on a row with both a
skipped post-break space and insertion breaks. -/
theorem wrapRow_length_eq_witness :
    1 ≤ 5 ∧ (wrapRow 5 ("more longtest short1".toList)).length
        + skippedCount 5 ("more longtest short1".toList)
      = (trim ("more longtest short1".toList)).length
        + insertionCount 5 ("more longtest short1".toList) :=
  ⟨by decide, wrapRow_length_eq 5 ("more longtest short1".toList)
    (by decide)⟩

end cudf.strings

namespace cudf.strings

theorem take_head? {α : Type} (x : List α) (j : Nat) (hj : 1 ≤ j) :
    (x.take j).head? = x.head? := by
  cases x with
  | nil => simp
  | cons a l =>
    cases j with
    | zero => omega
    | succ j => rfl

theorem head?_append_of_ne_nil {α : Type} (x y : List α) (h : x ≠ []) :
    (x ++ y).head? = x.head? := by
  cases x with
  | nil => exact absurd rfl h
  | cons a l => rfl

theorem wrapStep_noLeadOk (width : Nat) (st : WrapState) (c : Char)
    (hw : 1 ≤ width) (hc : c ≠ '\n') (h : noLeadOk st) :
    noLeadOk (wrapStep width st c) := by
  obtain ⟨hacc, hhead, hnl, hempty, hls⟩ := h
  by_cases h1 : st.skipping = true ∧ c = ' '
  · rw [wrapStep_skip width st c h1]
    exact ⟨hacc, hhead, hnl, fun _ => rfl, hls⟩
  · by_cases h2 : width < st.buf.length + 1
    · by_cases h3 : c = ' '
      · have hbne : st.buf ≠ [] := fun hb => h1 ⟨hempty hb, h3⟩
        rw [wrapStep_sub_space width st c h1 h2 h3]
        refine ⟨?_, by simp, by simp, fun _ => rfl, by simp⟩
        intro l hl
        rcases List.mem_append.mp hl with h' | h'
        · exact hacc l h'
        · simp only [List.mem_singleton] at h'
          subst h'
          exact ⟨hbne, hhead, hnl⟩
      · cases h4 : st.lastSpace with
        | some j =>
          obtain ⟨hsp, hlast⟩ := hls j h4
          have hjlt : j < st.buf.length := by
            by_contra hge
            rw [List.getElem?_eq_none (by omega)] at hsp
            exact Option.noConfusion hsp
          have hbne : st.buf ≠ [] := by
            intro hb
            rw [hb] at hjlt
            simp at hjlt
          have hj1 : 1 ≤ j := by
            by_contra hj0
            have hj0' : j = 0 := by omega
            subst hj0'
            rw [← List.head?_eq_getElem?] at hsp
            exact hhead hsp
          have hafter : ∀ k, j < k → (st.buf ++ [c])[k]? ≠ some ' ' := by
            intro k hk
            rcases lt_trichotomy k st.buf.length with hlt | heq | hgt
            · rw [List.getElem?_append_left hlt]
              exact hlast k hk
            · rw [heq, List.getElem?_concat_length]
              intro habs
              exact h3 (Option.some.inj habs)
            · rw [List.getElem?_eq_none
                (by simp only [List.length_append, List.length_cons,
                  List.length_nil]; omega)]
              simp
          rw [wrapStep_sub width st c j h1 h2 h3 h4]
          refine ⟨?_, ?_, ?_, fun _ => rfl, by simp⟩
          · intro l hl
            rcases List.mem_append.mp hl with h' | h'
            · exact hacc l h'
            · simp only [List.mem_singleton] at h'
              subst h'
              refine ⟨?_, ?_, ?_⟩
              · intro habs
                have hlen := congrArg List.length habs
                simp only [List.length_take, List.length_append,
                  List.length_cons, List.length_nil] at hlen
                omega
              · rw [take_head? _ j hj1, head?_append_of_ne_nil _ _ hbne]
                exact hhead
              · intro habs
                have hmem := List.take_subset j _ habs
                rcases List.mem_append.mp hmem with hm | hm
                · exact hnl hm
                · rw [List.mem_singleton] at hm
                  exact hc hm.symm
          · rw [List.head?_drop]
            exact hafter (j + 1) (by omega)
          · intro habs
            have hmem := List.drop_subset (j + 1) _ habs
            rcases List.mem_append.mp hmem with hm | hm
            · exact hnl hm
            · rw [List.mem_singleton] at hm
              exact hc hm.symm
        | none =>
          rw [wrapStep_ins width st c h1 h2 h3 h4]
          refine ⟨?_, ?_, ?_, fun _ => rfl, by simp⟩
          · intro l hl
            rcases List.mem_append.mp hl with h' | h'
            · exact hacc l h'
            · simp only [List.mem_singleton] at h'
              subst h'
              refine ⟨?_, hhead, hnl⟩
              intro hb
              have hb0 : st.buf.length = 0 := by rw [hb]; rfl
              omega
          · simp only [List.head?_cons]
            intro habs
            exact h3 (Option.some.inj habs)
          · simp only [List.mem_singleton]
            intro habs
            exact hc habs.symm
    · rw [wrapStep_no_break width st c h1 h2]
      have hcsp : st.buf = [] → c ≠ ' ' := by
        intro hb hsp
        exact h1 ⟨hempty hb, hsp⟩
      refine ⟨hacc, ?_, ?_, ?_, ?_⟩
      · by_cases hb : st.buf = []
        · rw [hb, List.nil_append, List.head?_cons]
          intro habs
          exact hcsp hb (Option.some.inj habs)
        · rw [head?_append_of_ne_nil _ _ hb]
          exact hhead
      · intro habs
        rcases List.mem_append.mp habs with hm | hm
        · exact hnl hm
        · rw [List.mem_singleton] at hm
          exact hc hm.symm
      · intro habs
        exact absurd habs (by simp)
      · intro j hj
        simp only at hj
        by_cases h3 : c = ' '
        · rw [if_pos h3] at hj
          have hj' : j = st.buf.length := (Option.some.inj hj).symm
          subst hj'
          constructor
          · rw [List.getElem?_concat_length, h3]
          · intro k hk
            rw [List.getElem?_eq_none
              (by simp only [List.length_append, List.length_cons,
                List.length_nil]; omega)]
            simp
        · rw [if_neg h3] at hj
          obtain ⟨hsp, hlast⟩ := hls j hj
          have hjlt : j < st.buf.length := by
            by_contra hge
            rw [List.getElem?_eq_none (by omega)] at hsp
            exact Option.noConfusion hsp
          constructor
          · rw [List.getElem?_append_left hjlt]
            exact hsp
          · intro k hk
            rcases lt_trichotomy k st.buf.length with hlt | heq | hgt
            · rw [List.getElem?_append_left hlt]
              exact hlast k hk
            · rw [heq, List.getElem?_concat_length]
              intro habs
              exact h3 (Option.some.inj habs)
            · rw [List.getElem?_eq_none
                (by simp only [List.length_append, List.length_cons,
                  List.length_nil]; omega)]
              simp

theorem foldl_noLeadOk (width : Nat) (l : List Char) (st : WrapState)
    (hw : 1 ≤ width) (hl : ∀ c ∈ l, c ≠ '\n') (h : noLeadOk st) :
    noLeadOk (l.foldl (wrapStep width) st) := by
  induction l generalizing st with
  | nil => exact h
  | cons c l ih =>
    exact ih _ (fun d hd => hl d (List.mem_cons.mpr (Or.inr hd)))
      (wrapStep_noLeadOk width st c hw (hl c (List.mem_cons_self _ _)) h)

end cudf.strings

namespace cudf.strings

/-- C9 (amended): for every non-null input row that contains no break
character itself and every width ≥ 1, no line of the output row begins
with a space — immediately after any break, consecutive spaces are
skipped without being emitted. -/
theorem wrapRow_no_leading_space (width : Nat) (s : List Char)
    (hw : 1 ≤ width) (hn : '\n' ∉ s) :
    ∀ l ∈ lines (wrapRow width s), l.head? ≠ some ' ' := by
  cases htrim : trim s with
  | nil =>
    intro l hl
    have h0 : wrapRow width s = [] := by
      rw [wrapRow, wrapRowState, htrim]
      rfl
    rw [h0] at hl
    have hlines : lines ([] : List Char) = [[]] := rfl
    rw [hlines, List.mem_singleton] at hl
    subst hl
    simp
  | cons c0 rest =>
    have hc0 : c0 ≠ ' ' := trim_head_ne_space s c0 rest htrim
    have hmem : ∀ d ∈ trim s, d ≠ '\n' := by
      intro d hd hdn
      subst hdn
      exact hn (trim_mem s '\n' hd)
    have hc0n : c0 ≠ '\n' :=
      hmem c0 (by rw [htrim]; exact List.mem_cons_self _ _)
    have hst1 : wrapStep width initState c0 =
        ⟨[], [c0], none, false, 0, 0⟩ := by
      have hh1 : ¬(initState.skipping = true ∧ c0 = ' ') := by
        intro hcontra
        exact hc0 hcontra.2
      have hh2 : ¬ width < initState.buf.length + 1 := by
        have : initState.buf.length = 0 := rfl
        omega
      rw [wrapStep_no_break width initState c0 hh1 hh2]
      rw [if_neg hc0]
      rfl
    have hok1 : noLeadOk ⟨[], [c0], none, false, 0, 0⟩ := by
      refine ⟨by simp, ?_, ?_, by simp, by simp⟩
      · simp only [List.head?_cons]
        intro habs
        exact hc0 (Option.some.inj habs)
      · simp only [List.mem_singleton]
        intro habs
        exact hc0n habs.symm
    have hfin : noLeadOk (wrapRowState width s) := by
      rw [wrapRowState, htrim, List.foldl_cons, hst1]
      exact foldl_noLeadOk width rest _ hw
        (fun d hd => hmem d (by rw [htrim]; exact List.mem_cons.mpr (Or.inr hd)))
        hok1
    obtain ⟨hacc, hhead, hnlb, _, _⟩ := hfin
    intro l hl
    rw [wrapRow, lines_emit] at hl
    rcases List.mem_append.mp hl with h' | h'
    · obtain ⟨piece, hpiece, hlp⟩ := List.mem_flatten.mp h'
      obtain ⟨a, ha, rfl⟩ := List.mem_map.mp hpiece
      obtain ⟨_, hahead, hanl⟩ := hacc a ha
      rw [lines_eq_single a hanl, List.mem_singleton] at hlp
      subst hlp
      exact hahead
    · rw [lines_eq_single _ hnlb, List.mem_singleton] at h'
      subst h'
      exact hhead

/-- C9 witness: the amended no-leading-space property instantiated at
width 5 on a concrete newline-free row with skipped post-break spaces. -/
theorem wrapRow_no_leading_space_witness :
    1 ≤ 5 ∧ '\n' ∉ ("ab   cd".toList) ∧
      ∀ l ∈ lines (wrapRow 5 ("ab   cd".toList)), l.head? ≠ some ' ' :=
  ⟨by decide, by decide,
    wrapRow_no_leading_space 5 ("ab   cd".toList) (by decide) (by decide)⟩

/-- C9 counterexample: as stated over all rows the claim is false — a
row that already contains a break character followed by a space yields
an output line that begins with a space (the algorithm treats the
pre-existing newline as an ordinary non-space character). -/
theorem wrapRow_leading_space_counterexample :
    ∃ l ∈ lines (wrapRow 5 ("x\n y".toList)), l.head? = some ' ' := by
  decide

end cudf.strings

namespace cudf.strings

theorem mem_emit (acc : List (List Char)) (buf : List Char) (d : Char)
    (h : d ∈ emit acc buf) :
    (∃ l ∈ acc, d ∈ l) ∨ d ∈ buf ∨ d = '\n' := by
  induction acc with
  | nil => exact Or.inr (Or.inl h)
  | cons l acc ih =>
    rw [emit_cons] at h
    rcases List.mem_append.mp h with hm | hm
    · exact Or.inl ⟨l, List.mem_cons_self _ _, hm⟩
    · rcases List.mem_cons.mp hm with hm' | hm'
      · exact Or.inr (Or.inr hm')
      · rcases ih hm' with h' | h'
        · obtain ⟨a, ha, hda⟩ := h'
          exact Or.inl ⟨a, List.mem_cons.mpr (Or.inr ha), hda⟩
        · exact Or.inr h'

theorem wrapStep_charsOk (width : Nat) (s : List Char) (st : WrapState)
    (c : Char) (hcs : c ∈ s) (h : charsOk s st) :
    charsOk s (wrapStep width st c) := by
  obtain ⟨hacc, hbuf⟩ := h
  have hbufc : ∀ d ∈ st.buf ++ [c], d ∈ s := by
    intro d hd
    rcases List.mem_append.mp hd with hm | hm
    · exact hbuf d hm
    · rw [List.mem_singleton] at hm
      subst hm
      exact hcs
  by_cases h1 : st.skipping = true ∧ c = ' '
  · rw [wrapStep_skip width st c h1]
    exact ⟨hacc, hbuf⟩
  · by_cases h2 : width < st.buf.length + 1
    · by_cases h3 : c = ' '
      · rw [wrapStep_sub_space width st c h1 h2 h3]
        refine ⟨?_, by simp⟩
        intro l hl
        rcases List.mem_append.mp hl with h' | h'
        · exact hacc l h'
        · rw [List.mem_singleton] at h'
          subst h'
          exact hbuf
      · cases h4 : st.lastSpace with
        | some j =>
          rw [wrapStep_sub width st c j h1 h2 h3 h4]
          refine ⟨?_, ?_⟩
          · intro l hl
            rcases List.mem_append.mp hl with h' | h'
            · exact hacc l h'
            · rw [List.mem_singleton] at h'
              subst h'
              intro d hd
              exact hbufc d (List.take_subset _ _ hd)
          · intro d hd
            exact hbufc d (List.drop_subset _ _ hd)
        | none =>
          rw [wrapStep_ins width st c h1 h2 h3 h4]
          refine ⟨?_, ?_⟩
          · intro l hl
            rcases List.mem_append.mp hl with h' | h'
            · exact hacc l h'
            · rw [List.mem_singleton] at h'
              subst h'
              exact hbuf
          · intro d hd
            rw [List.mem_singleton] at hd
            subst hd
            exact hcs
    · rw [wrapStep_no_break width st c h1 h2]
      exact ⟨hacc, hbufc⟩

theorem foldl_charsOk (width : Nat) (s : List Char) (l : List Char)
    (st : WrapState) (hl : ∀ c ∈ l, c ∈ s) (h : charsOk s st) :
    charsOk s (l.foldl (wrapStep width) st) := by
  induction l generalizing st with
  | nil => exact h
  | cons c l ih =>
    exact ih _ (fun d hd => hl d (List.mem_cons.mpr (Or.inr hd)))
      (wrapStep_charsOk width s st c (hl c (List.mem_cons_self _ _)) h)

/-- C10: every character of an output row either already occurs in the
input row or is the break character, and the break character written by
both substitution and insertion breaks is specifically ASCII newline
0x0A — no other break character ever appears. -/
theorem wrapRow_break_char (width : Nat) (s : List Char) :
    ∀ c ∈ wrapRow width s, c ∈ s ∨ c = Char.ofNat 10 := by
  have hok : charsOk s (wrapRowState width s) := by
    apply foldl_charsOk width s (trim s) initState
    · intro c hc
      exact trim_mem s c hc
    · exact ⟨by simp [initState], by simp [initState]⟩
  obtain ⟨hacc, hbuf⟩ := hok
  intro c hc
  rw [wrapRow] at hc
  rcases mem_emit _ _ c hc with h' | h' | h'
  · obtain ⟨l, hl, hcl⟩ := h'
    exact Or.inl (hacc l hl c hcl)
  · exact Or.inl (hbuf c h')
  · refine Or.inr ?_
    rw [h']

/-- C10 witness: provenance instantiated at the break character written
into a concrete wrapped row. -/
theorem wrapRow_break_char_witness :
    '\n' ∈ wrapRow 5 ("tesT1 test2".toList) ∧
      ('\n' ∈ "tesT1 test2".toList ∨ '\n' = Char.ofNat 10) :=
  ⟨by decide, wrapRow_break_char 5 ("tesT1 test2".toList) '\n' (by decide)⟩

end cudf.strings

namespace cudf.strings

/-- C1: for the row "more longtest short1" and width 5, the §4.1
algorithm force-splits every token longer than the width, including the
last token of the row, yielding "more\nlongt\nest\nshort\n1". -/
theorem wrap_forced_split_example :
    wrap [some ("more longtest short1".toList)] 5 =
      Except.ok [some ("more\nlongt\nest\nshort\n1".toList)] := by
  rfl

/-- C7: for the row "tesT1 test2" and width 5, the space at position 5
is substituted by a break and every non-space character, case included,
is preserved, yielding "tesT1\ntest2". -/
theorem wrap_substitution_example :
    wrap [some ("tesT1 test2".toList)] 5 =
      Except.ok [some ("tesT1\ntest2".toList)] := by
  rfl

/-- C8: for the row " other test " and width 5, leading and trailing
spaces are trimmed before processing and the remaining interior space is
substituted by a break, yielding "other\ntest". -/
theorem wrap_trim_example :
    wrap [some (" other test ".toList)] 5 =
      Except.ok [some ("other\ntest".toList)] := by
  rfl

/-- C4: for every input column (including an empty one) and every width
≤ 0, wrap fails with the invalid-argument error before any row is
processed and produces no output column. -/
theorem wrap_invalid_width (strings : List (Option (List Char)))
    (width : Int) (h : width ≤ 0) :
    wrap strings width =
      Except.error "Parameter width must be greater than zero" := by
  unfold wrap
  rw [if_pos h]

/-- C4 witness: the rejection instantiated at width 0 on the empty
column. -/
theorem wrap_invalid_width_witness :
    (0 : Int) ≤ 0 ∧ wrap [] 0 =
      Except.error "Parameter width must be greater than zero" :=
  ⟨by decide, wrap_invalid_width [] 0 (by decide)⟩

theorem wrap_ok (strings : List (Option (List Char))) (width : Int)
    (h : 1 ≤ width) :
    wrap strings width =
      Except.ok (strings.map (Option.map (wrapRow width.toNat))) := by
  unfold wrap
  rw [if_neg (by omega)]

/-- C5: for every input column and every valid width, wrap succeeds,
the output column has the same row count as the input column, and each
null input row maps to a null output row at the same row index. -/
theorem wrap_null_rows (strings : List (Option (List Char)))
    (width : Int) (h : 1 ≤ width) :
    ∃ out, wrap strings width = Except.ok out ∧
      out.length = strings.length ∧
      ∀ i : Nat, strings[i]? = some none → out[i]? = some none := by
  refine ⟨strings.map (Option.map (wrapRow width.toNat)),
    wrap_ok strings width h, by simp, ?_⟩
  intro i hi
  simp [List.getElem?_map, hi]

/-- C5 witness: null passthrough instantiated on a two-row column with
a null first row, at width 2. -/
theorem wrap_null_rows_witness :
    (1 : Int) ≤ 2 ∧
      ∃ out, wrap [none, some ("ab".toList)] 2 = Except.ok out ∧
        out.length = [none, some ("ab".toList)].length ∧
        ∀ i : Nat, [none, some ("ab".toList)][i]? = some none →
          out[i]? = some none :=
  ⟨by decide, wrap_null_rows [none, some ("ab".toList)] 2 (by decide)⟩

/-- C6: wrap is deterministic — two invocations on identical input
columns with identical widths produce identical output columns. -/
theorem wrap_deterministic (s₁ s₂ : List (Option (List Char)))
    (w₁ w₂ : Int) (hs : s₁ = s₂) (hw : w₁ = w₂) :
    wrap s₁ w₁ = wrap s₂ w₂ := by
  rw [hs, hw]

/-- C6 witness: determinism instantiated on a concrete column and
width. -/
theorem wrap_deterministic_witness :
    wrap [some ("tesT1 test2".toList)] 5 =
      wrap [some ("tesT1 test2".toList)] 5 :=
  wrap_deterministic [some ("tesT1 test2".toList)]
    [some ("tesT1 test2".toList)] 5 5 rfl rfl

end cudf.strings
